import Mathlib

/-!
Shallow embedding of the ticketing-queue MVP backend
(`src/backend/src/routes.js`, `src/backend/src/server.js`).

The backend keeps all queue state in Redis.  We model the Redis keyspace as
an explicit `Store` record:

  * `queue:token:{t}`      -> `Store.meta`        (token metadata JSON)
  * `queue:state:{t}`      -> `Store.state`       (lifecycle state string)
  * `queue:{eventId}`      -> `Store.queues`      (sorted set, score = join time)
  * `queue:events`         -> `Store.events`      (set of event ids)
  * `queue:admission:{t}`  -> `Store.admByQueue`  (admission token per queue token)
  * `admission:{a}`        -> `Store.admPayload`  (admission token payload JSON)
  * `reservation:{r}`      -> `Store.reservations`

`Store.log` records the `[ADMIT]` console log of `admitBatchOnce`: the queue
tokens admitted, in admission order.

A Redis sorted set is modelled as a `List (Nat × String)` of (score, member)
pairs; `zPopMin` extracts an entry of minimal score.  (Redis breaks score
ties by member lexicographic order; the model breaks them by list position.
No theorem below depends on the tie order.)  TTLs attach no clock to the
model: expiry of a key is modelled as the key disappearing (an `expire`
operation in the trace semantics), and the value returned by `redis.ttl`
is an input to the status query, exactly as the route reads it.
-/

structure MetaRec where
  userId : String
  eventId : String
  joinedAt : Nat
deriving DecidableEq

structure AdmPayload where
  queueToken : String
  userId : String
  eventId : String
  admittedAt : Nat
deriving DecidableEq

structure ResRec where
  reservationId : String
  admissionToken : String
  queueToken : String
  userId : String
  eventId : String
  startedAt : Nat
deriving DecidableEq

structure Store where
  meta : String → Option MetaRec
  state : String → Option String
  queues : String → List (Nat × String)
  events : List String
  admByQueue : String → Option String
  admPayload : String → Option AdmPayload
  reservations : String → Option ResRec
  log : List String

def emptyStore : Store where
  meta := fun _ => none
  state := fun _ => none
  queues := fun _ => []
  events := []
  admByQueue := fun _ => none
  admPayload := fun _ => none
  reservations := fun _ => none
  log := []

/-- Pointwise update of a string-keyed map (one Redis SET or DEL). -/
def updKey {α : Type} (f : String → α) (k : String) (v : α) : String → α :=
  fun x => if x = k then v else f x

theorem updKey_same {α : Type} (f : String → α) (k : String) (v : α) :
    updKey f k v k = v := by simp [updKey]

theorem updKey_other {α : Type} (f : String → α) (k : String) (v : α) (x : String)
    (h : x ≠ k) : updKey f k v x = f x := by simp [updKey, h]

/-- Redis ZADD with update semantics: an existing entry for the member is
replaced, otherwise the (score, member) pair is added. -/
def zadd (l : List (Nat × String)) (score : Nat) (m : String) : List (Nat × String) :=
  (score, m) :: l.filter (fun e => e.2 ≠ m)

/-- Redis ZPOPMIN: remove and return an entry of minimal score
(`none` on an empty set). -/
def zpopMin (l : List (Nat × String)) : Option ((Nat × String) × List (Nat × String)) :=
  match l.argmin Prod.fst with
  | none => none
  | some e => some (e, l.erase e)

/-- Redis ZRANK: 0-based rank of a member, counting entries with strictly
smaller score (`none` when the member is absent). -/
def zrank (l : List (Nat × String)) (m : String) : Option Nat :=
  match l.find? (fun e => e.2 = m) with
  | none => none
  | some e => some (l.filter (fun x => x.1 < e.1)).length

/-- Redis SADD on the `queue:events` set. -/
def sadd (l : List String) (x : String) : List String :=
  if x ∈ l then l else l ++ [x]

theorem zpopMin_nil : zpopMin [] = none := rfl

theorem zpopMin_eq_none {l : List (Nat × String)} (h : zpopMin l = none) : l = [] := by
  unfold zpopMin at h
  split at h
  · next harg => exact List.argmin_eq_none.mp harg
  · exact absurd h (by simp)

theorem zpopMin_mem {l : List (Nat × String)} {e : Nat × String}
    {rest : List (Nat × String)} (h : zpopMin l = some (e, rest)) : e ∈ l := by
  unfold zpopMin at h
  split at h
  · exact absurd h (by simp)
  · next e0 harg =>
    simp only [Option.some.injEq, Prod.mk.injEq] at h
    have hm : e0 ∈ List.argmin Prod.fst l := by rw [harg]; rfl
    exact h.1 ▸ List.argmin_mem hm

theorem zpopMin_min {l : List (Nat × String)} {e : Nat × String}
    {rest : List (Nat × String)} (h : zpopMin l = some (e, rest)) :
    ∀ x ∈ l, e.1 ≤ x.1 := by
  unfold zpopMin at h
  split at h
  · exact absurd h (by simp)
  · next e0 harg =>
    intro x hx
    simp only [Option.some.injEq, Prod.mk.injEq] at h
    have hm : e0 ∈ List.argmin Prod.fst l := by rw [harg]; rfl
    exact h.1 ▸ List.le_of_mem_argmin hx hm

theorem zpopMin_rest {l : List (Nat × String)} {e : Nat × String}
    {rest : List (Nat × String)} (h : zpopMin l = some (e, rest)) :
    rest = l.erase e := by
  unfold zpopMin at h
  split at h
  · exact absurd h (by simp)
  · next e0 harg =>
    simp only [Option.some.injEq, Prod.mk.injEq] at h
    rw [← h.2, h.1]

theorem zpopMin_rest_subset {l : List (Nat × String)} {e x : Nat × String}
    {rest : List (Nat × String)} (h : zpopMin l = some (e, rest)) (hx : x ∈ rest) :
    x ∈ l := by
  rw [zpopMin_rest h] at hx
  exact List.mem_of_mem_erase hx

/-! ## POST /queue/enter (`routes.js` 74-122)

The route draws a fresh random `queueToken` and reads the wall clock
(`Date.now()`); both are inputs of the model.  `TTL_SEC = 60 * 60` is the
metadata/state TTL; without a clock in the model a TTL write is just a
write, and the TTL value only surfaces in the response. -/

structure EnterResp where
  queueToken : String
  status : String
  position : Option Nat
  expiresInSec : Nat
deriving DecidableEq

def enter (s : Store) (userId eventId queueToken : String) (now : Nat) :
    Store × Except String EnterResp :=
  if userId = "" then (s, .error "userId is required")
  else if eventId = "" then (s, .error "eventId is required")
  else
    let s1 : Store :=
      { s with meta := updKey s.meta queueToken (some ⟨userId, eventId, now⟩) }
    let s2 : Store :=
      { s1 with state := updKey s1.state queueToken (some "WAITING") }
    let s3 : Store :=
      { s2 with queues := updKey s2.queues eventId (zadd (s2.queues eventId) now queueToken) }
    let s4 : Store := { s3 with events := sadd s3.events eventId }
    let position := (zrank (s4.queues eventId) queueToken).map (fun r => r + 1)
    (s4, .ok ⟨queueToken, "WAITING", position, 60 * 60⟩)

/-! ## GET /queue/status (`routes.js` 170-234) -/

/-- The ETA computation of `routes.js` 198-205, over exact rationals:
`perSec = BATCH_SIZE / BATCH_INTERVAL_SEC`, `ahead = max(position - 1, 0)`,
`ceil(ahead / perSec)`.  `p` is the 1-based position, so the natural
subtraction `p - 1` equals `max(p - 1, 0)`. -/
def etaSeconds (batchSize batchIntervalSec p : Nat) : Nat :=
  let perSec : ℚ := (batchSize : ℚ) / (batchIntervalSec : ℚ)
  let ahead : Nat := p - 1
  Nat.ceil ((ahead : ℚ) / perSec)

structure StatusResp where
  queueToken : String
  status : String
  position : Option Nat
  estimatedWaitSec : Option Nat
  expiresInSec : Int
  admissionToken : Option String
  admissionUrl : Option String
deriving DecidableEq

/-- The status route.  `ttlSec` is the value `redis.ttl(metaKey)` returns
(may be `-1` for no expiry or `-2` for a missing key).  `batchSize` and
`batchIntervalSec` are the `QUEUE_BATCH_SIZE` / `QUEUE_BATCH_INTERVAL_SEC`
environment configuration.  (`encodeURIComponent` is dropped: admission
tokens are `a_` plus hex, which it maps to themselves.) -/
def statusQuery (s : Store) (token : String) (ttlSec : Int)
    (batchSize batchIntervalSec : Nat) : Except String StatusResp :=
  if token = "" then .error "token is required"
  else
    match s.meta token with
    | none => .error "token_not_found"
    | some meta =>
      let status := (s.state token).getD "WAITING"
      let expiresInSec : Int := if ttlSec > 0 then ttlSec else 0
      let position := (zrank (s.queues meta.eventId) token).map (fun r => r + 1)
      let estimatedWaitSec : Option Nat :=
        match position with
        | some p => if status = "WAITING" then some (etaSeconds batchSize batchIntervalSec p) else none
        | none => none
      let admissionToken : Option String :=
        if status = "ADMITTED" then s.admByQueue token else none
      let admissionUrl : Option String :=
        admissionToken.map (fun a => "/reserve?admissionToken=" ++ a)
      .ok ⟨token, status, position, estimatedWaitSec, expiresInSec,
           admissionToken, admissionUrl⟩

/-! ## POST /reservation/start (`routes.js` 279-324)

The route draws a fresh `reservationId` and reads the clock; both are
inputs.  `reservationTtlSec` is `RESERVATION_TTL_SEC` (default 120). -/

structure RedeemResp where
  reservationId : String
  expiresInSec : Nat
  userId : String
  eventId : String
deriving DecidableEq

def redeem (s : Store) (admissionToken reservationId : String)
    (now reservationTtlSec : Nat) : Store × Except String RedeemResp :=
  if admissionToken = "" then (s, .error "admissionToken is required")
  else
    match s.admPayload admissionToken with
    | none => (s, .error "invalid_or_expired_admissionToken")
    | some p =>
      let rec1 : ResRec :=
        ⟨reservationId, admissionToken, p.queueToken, p.userId, p.eventId, now⟩
      let s1 : Store :=
        { s with reservations := updKey s.reservations reservationId (some rec1) }
      let s2 : Store :=
        { s1 with admPayload := updKey s1.admPayload admissionToken none }
      (s2, .ok ⟨reservationId, reservationTtlSec, p.userId, p.eventId⟩)

/-! ## The admission scheduler (`server.js` 76-132)

`admitBatchOnce` sweeps every event in `queue:events`; per event it pops up
to `BATCH_SIZE` minimal-score tokens.  A popped token whose metadata is gone
is discarded (its state key deleted); otherwise a fresh admission token is
minted and the token is promoted to ADMITTED.  Fresh admission tokens
(`crypto.randomBytes`) are modelled by a generator `mint` applied to a
counter threaded through the sweep. -/

def admitLoop (mint : Nat → String) (now : Nat) (eventId : String) :
    Nat → Nat → Store → Store × Nat
  | 0, ctr, s => (s, ctr)
  | fuel + 1, ctr, s =>
    match zpopMin (s.queues eventId) with
    | none => (s, ctr)
    | some (e, rest) =>
      let t := e.2
      let s1 : Store := { s with queues := updKey s.queues eventId rest }
      match s1.meta t with
      | none =>
        admitLoop mint now eventId fuel ctr
          { s1 with state := updKey s1.state t none }
      | some m =>
        let a := mint ctr
        admitLoop mint now eventId fuel (ctr + 1)
          { s1 with
            state := updKey s1.state t (some "ADMITTED"),
            admByQueue := updKey s1.admByQueue t (some a),
            admPayload := updKey s1.admPayload a (some ⟨t, m.userId, eventId, now⟩),
            log := s1.log ++ [t] }

def admitEvent (mint : Nat → String) (now batchSize : Nat) (acc : Store × Nat)
    (eventId : String) : Store × Nat :=
  if (acc.1.queues eventId).length = 0 then acc
  else admitLoop mint now eventId batchSize acc.2 acc.1

def admitBatchOnce (mint : Nat → String) (ctr now batchSize : Nat) (s : Store) :
    Store × Nat :=
  s.events.foldl (admitEvent mint now batchSize) (s, ctr)

/-! ## Interleaved redemptions (`routes.js` 279-324, step by step)

Each `await redis.*` call in the redeem handler is a separate round trip:
GET `admission:{t}`, then SET `reservation:{r}`, then DEL `admission:{t}`.
Between any two of them another concurrently running handler can execute.
`rstep` performs one such atomic step of one in-flight redeem call;
`runSched` interleaves two in-flight calls under an explicit schedule. -/

deriving instance DecidableEq for Except

inductive RPhase where
  | start
  | afterGet (p : AdmPayload)
  | afterSet (p : AdmPayload)
  | finished (r : Except String RedeemResp)
deriving DecidableEq

structure RThread where
  phase : RPhase
  reservationId : String
deriving DecidableEq

def rstep (admissionToken : String) (now reservationTtlSec : Nat)
    (th : RThread) (s : Store) : RThread × Store :=
  match th.phase with
  | .start =>
    if admissionToken = "" then
      ({ th with phase := .finished (.error "admissionToken is required") }, s)
    else
      match s.admPayload admissionToken with
      | none =>
        ({ th with phase := .finished (.error "invalid_or_expired_admissionToken") }, s)
      | some p => ({ th with phase := .afterGet p }, s)
  | .afterGet p =>
    let rec1 : ResRec :=
      ⟨th.reservationId, admissionToken, p.queueToken, p.userId, p.eventId, now⟩
    ({ th with phase := .afterSet p },
     { s with reservations := updKey s.reservations th.reservationId (some rec1) })
  | .afterSet p =>
    ({ th with phase := .finished (.ok ⟨th.reservationId, reservationTtlSec, p.userId, p.eventId⟩) },
     { s with admPayload := updKey s.admPayload admissionToken none })
  | .finished _ => (th, s)

/-- Run two concurrent redeem calls for the same admission token under a
schedule: `true` steps the first thread, `false` the second. -/
def runSched (admissionToken : String) (now reservationTtlSec : Nat) :
    List Bool → RThread × RThread × Store → RThread × RThread × Store
  | [], st => st
  | b :: sched, (t1, t2, s) =>
    if b then
      let (t1a, sa) := rstep admissionToken now reservationTtlSec t1 s
      runSched admissionToken now reservationTtlSec sched (t1a, t2, sa)
    else
      let (t2a, sa) := rstep admissionToken now reservationTtlSec t2 s
      runSched admissionToken now reservationTtlSec sched (t1, t2a, sa)

/-- Running one redeem call's steps to completion without interference is
the sequential handler. -/
theorem rstep_run_eq_redeem (s : Store) (admissionToken reservationId : String)
    (now ttl : Nat) :
    (fun st => (rstep admissionToken now ttl st.1 st.2))
      ((fun st => (rstep admissionToken now ttl st.1 st.2))
        ((fun st => (rstep admissionToken now ttl st.1 st.2))
          (⟨.start, reservationId⟩, s))) =
      (⟨.finished (redeem s admissionToken reservationId now ttl).2, reservationId⟩,
        (redeem s admissionToken reservationId now ttl).1) := by
  by_cases h : admissionToken = ""
  · simp [rstep, redeem, h]
  · cases hp : s.admPayload admissionToken <;> simp [rstep, redeem, h, hp]

/-! ## Trace semantics

A system run is a sequence of atomic API effects against the shared store,
starting from an empty store: queue entries (`enter`), scheduler sweeps
(`tick` = `admitBatchOnce`), and TTL expiries of individual keys (Redis
deletes a key when its TTL elapses). -/

inductive Op where
  | enter (userId eventId queueToken : String) (now : Nat)
  | tick (mint : Nat → String) (ctr now batchSize : Nat)
  | expireMeta (token : String)
  | expireState (token : String)
  | expireAdmission (admissionToken : String)

def applyOp (s : Store) : Op → Store
  | .enter u e t now => (enter s u e t now).1
  | .tick mint ctr now batchSize => (admitBatchOnce mint ctr now batchSize s).1
  | .expireMeta t => { s with meta := updKey s.meta t none }
  | .expireState t => { s with state := updKey s.state t none }
  | .expireAdmission a => { s with admPayload := updKey s.admPayload a none }

def runOps (s : Store) (ops : List Op) : Store :=
  ops.foldl applyOp s

/-- Whether an operation is an `enter` issuing the given queue token. -/
def entersTok (t : String) : Op → Prop
  | .enter _ _ t2 _ => t2 = t
  | _ => False

instance (t : String) (op : Op) : Decidable (entersTok t op) := by
  cases op <;> simp only [entersTok] <;> infer_instance

/-- Projection of the status route's result to the reported lifecycle state. -/
def statusOf (x : Except String StatusResp) : Option String :=
  match x with
  | .ok r => some r.status
  | .error _ => none

/-- ETA as worded by the spec (section 4.4): given a 1-based `position` and
configuration, `throughputPerSec = batchSize / batchIntervalSec`,
`aheadCount = max(position - 1, 0)`, `etaSeconds = ceil(aheadCount /
throughputPerSec)`; `none` when the position is unknown or the token is no
longer WAITING.  Used only to compare against the code's computation. -/
def etaSpecFn (batchSize batchIntervalSec : Nat) (position : Option Nat)
    (statusWaiting : Bool) : Option Nat :=
  match position with
  | none => none
  | some p =>
    if statusWaiting then
      let throughputPerSec : ℚ := (batchSize : ℚ) / (batchIntervalSec : ℚ)
      let aheadCount : ℚ := max ((p : ℚ) - 1) 0
      some (Nat.ceil (aheadCount / throughputPerSec))
    else none

/-- Claim C10: for every successful status query the returned `expiresInSec`
is non-negative, and a non-positive TTL report (no expiry `-1`, missing key
`-2`, or `0`) is clamped to `0`. -/
theorem c10_expires_nonneg (s : Store) (t : String) (ttl : Int)
    (b i : Nat) (r : StatusResp) (h : statusQuery s t ttl b i = .ok r) :
    0 ≤ r.expiresInSec ∧ (ttl ≤ 0 → r.expiresInSec = 0) := by
  unfold statusQuery at h
  split at h
  · exact absurd h (by simp)
  · split at h
    · exact absurd h (by simp)
    · simp only [Except.ok.injEq] at h
      subst h
      constructor
      · dsimp only
        split
        · omega
        · omega
      · intro hle
        dsimp only
        split
        · omega
        · rfl

/-- A store holding only one token's metadata, used as a concrete input. -/
def metaOnlyStore : Store :=
  { emptyStore with meta := updKey emptyStore.meta "t" (some ⟨"u", "E", 0⟩) }

theorem c10_expires_nonneg_witness :
    0 ≤ (⟨"t", "WAITING", none, none, 0, none, none⟩ : StatusResp).expiresInSec ∧
      ((-2 : Int) ≤ 0 →
        (⟨"t", "WAITING", none, none, 0, none, none⟩ : StatusResp).expiresInSec = 0) :=
  c10_expires_nonneg metaOnlyStore "t" (-2) 5 3
    ⟨"t", "WAITING", none, none, 0, none, none⟩ (by decide)

/-- Claim C8: a status query for a token whose metadata entry is absent
(TTL-expired, or never issued) fails with `token_not_found`, and two such
queries are indistinguishable: any two tokens with absent metadata, in any
two stores, produce the identical result. -/
theorem c8_not_found (s s2 : Store) (t t2 : String) (ttl ttl2 : Int) (b i : Nat)
    (h1 : t ≠ "") (h2 : s.meta t = none)
    (h3 : t2 ≠ "") (h4 : s2.meta t2 = none) :
    statusQuery s t ttl b i = .error "token_not_found" ∧
      statusQuery s t ttl b i = statusQuery s2 t2 ttl2 b i := by
  constructor
  · simp [statusQuery, h1, h2]
  · simp [statusQuery, h1, h2, h3, h4]

theorem c8_not_found_witness :
    statusQuery emptyStore "expired" 3600 5 3 = .error "token_not_found" ∧
      statusQuery emptyStore "expired" 3600 5 3 = statusQuery emptyStore "never" (-2) 5 3 :=
  c8_not_found emptyStore emptyStore "expired" "never" 3600 (-2) 5 3
    (by decide) rfl (by decide) rfl

/-- Claim C4 counterexample: for a token whose metadata exists but whose
state key is absent, the status route reports `WAITING`
(`routes.js` 184 reads `(await redis.get(stateKey)) || "WAITING"`),
not the `EXPIRED` interpretation the claim states. -/
theorem c4_counterexample :
    statusOf (statusQuery metaOnlyStore "t" 100 5 3) = some "WAITING" ∧
      statusOf (statusQuery metaOnlyStore "t" 100 5 3) ≠ some "EXPIRED" := by
  constructor
  · rfl
  · intro h
    rw [show statusOf (statusQuery metaOnlyStore "t" 100 5 3) = some "WAITING" from rfl] at h
    exact absurd (Option.some.inj h) (by decide)

/-- Claim C4 as amended: a status query on a token whose metadata record
exists but whose state key is absent reports the default status `WAITING`
(the missing-state fallback at the API boundary is `WAITING`, not
`EXPIRED`). -/
theorem c4_missing_state_defaults_waiting (s : Store) (t : String) (ttl : Int)
    (b i : Nat) (m : MetaRec) (h1 : t ≠ "") (h2 : s.meta t = some m)
    (h3 : s.state t = none) :
    statusOf (statusQuery s t ttl b i) = some "WAITING" := by
  simp [statusQuery, statusOf, h1, h2, h3]

theorem c4_missing_state_defaults_waiting_witness :
    statusOf (statusQuery metaOnlyStore "t" 100 5 3) = some "WAITING" :=
  c4_missing_state_defaults_waiting metaOnlyStore "t" 100 5 3 ⟨"u", "E", 0⟩
    (by decide) rfl rfl

/-- Characterization of a successful status query: with the token non-empty
and its metadata present, the route answers with exactly the record built at
`routes.js` 221-229. -/
theorem statusQuery_ok (s : Store) (t : String) (ttl : Int) (b i : Nat)
    (m : MetaRec) (h1 : t ≠ "") (h2 : s.meta t = some m) :
    statusQuery s t ttl b i = .ok
      { queueToken := t
        status := (s.state t).getD "WAITING"
        position := (zrank (s.queues m.eventId) t).map (fun x => x + 1)
        estimatedWaitSec :=
          match (zrank (s.queues m.eventId) t).map (fun x => x + 1) with
          | some p =>
            if (s.state t).getD "WAITING" = "WAITING" then some (etaSeconds b i p)
            else none
          | none => none
        expiresInSec := if ttl > 0 then ttl else 0
        admissionToken :=
          if (s.state t).getD "WAITING" = "ADMITTED" then s.admByQueue t else none
        admissionUrl :=
          (if (s.state t).getD "WAITING" = "ADMITTED" then s.admByQueue t
            else none).map (fun a => "/reserve?admissionToken=" ++ a) } := by
  simp [statusQuery, h1, h2]

/-- Claim C5: on any successful status query, the reported
`estimatedWaitSec` equals the spec's pure ETA function of the reported
position and status, and it is `null` exactly when the position is unknown
or the status is no longer WAITING. -/
theorem c5_eta_refines_spec (s : Store) (t : String) (ttl : Int) (b i : Nat)
    (m : MetaRec) (h1 : t ≠ "") (h2 : s.meta t = some m) :
    ∃ r, statusQuery s t ttl b i = .ok r ∧
      r.estimatedWaitSec = etaSpecFn b i r.position (r.status == "WAITING") ∧
      (r.estimatedWaitSec = none ↔ (r.position = none ∨ r.status ≠ "WAITING")) := by
  refine ⟨_, statusQuery_ok s t ttl b i m h1 h2, ?_, ?_⟩
  · dsimp only
    cases hrk : zrank (s.queues m.eventId) t with
    | none => simp [etaSpecFn]
    | some rk =>
      by_cases hw : (s.state t).getD "WAITING" = "WAITING"
      · simp only [Option.map_some', hw, if_true, etaSpecFn, etaSeconds, hw]
        simp only [Option.some.injEq, beq_self_eq_true, if_true]
        congr 1
        have : ((rk + 1 : ℕ) : ℚ) - 1 = ((rk + 1 - 1 : ℕ) : ℚ) := by push_cast; ring
        rw [max_eq_left]
        · rw [this]
        · push_cast
          linarith [Nat.cast_nonneg (α := ℚ) rk]
      · have hb : ((s.state t).getD "WAITING" == "WAITING") = false := by
          simp [hw]
        simp [hw, hb, etaSpecFn]
  · dsimp only
    cases hrk : zrank (s.queues m.eventId) t with
    | none => simp
    | some rk =>
      by_cases hw : (s.state t).getD "WAITING" = "WAITING"
      · simp [hw]
      · simp [hw]

theorem c5_eta_refines_spec_witness :
    ∃ r, statusQuery metaOnlyStore "t" 100 5 3 = .ok r ∧
      r.estimatedWaitSec = etaSpecFn 5 3 r.position (r.status == "WAITING") ∧
      (r.estimatedWaitSec = none ↔ (r.position = none ∨ r.status ≠ "WAITING")) :=
  c5_eta_refines_spec metaOnlyStore "t" 100 5 3 ⟨"u", "E", 0⟩ (by decide) rfl

/-- Claim C9: for a fixed batch size and batch interval, the ETA computed by
the status query is non-decreasing in the 1-based position. -/
theorem c9_eta_monotone (b i p1 p2 : Nat) (hb : 0 < b) (hi : 0 < i)
    (h : p1 ≤ p2) : etaSeconds b i p1 ≤ etaSeconds b i p2 := by
  unfold etaSeconds
  apply Nat.ceil_le_ceil
  have hb' : (0 : ℚ) < (b : ℚ) := by exact_mod_cast hb
  have hi' : (0 : ℚ) < (i : ℚ) := by exact_mod_cast hi
  have hp : ((p1 - 1 : ℕ) : ℚ) ≤ ((p2 - 1 : ℕ) : ℚ) := by
    exact_mod_cast Nat.sub_le_sub_right h 1
  exact (div_le_div_iff_of_pos_right (div_pos hb' hi')).mpr hp

theorem c9_eta_monotone_witness :
    etaSeconds 5 3 4 ≤ etaSeconds 5 3 12 :=
  c9_eta_monotone 5 3 4 12 (by decide) (by decide) (by decide)

/-! ## Claim C1: double redemption -/

def redeemRaceStore : Store :=
  { emptyStore with admPayload := updKey emptyStore.admPayload "a1" (some ⟨"q1", "u1", "E1", 0⟩) }

def isOkFinished : RPhase → Bool
  | .finished (.ok _) => true
  | _ => false

/-- Both redeem calls take their GET step before either reaches its DEL
step: GET of call 1, GET of call 2, then the SET and DEL of call 1, then
the SET and DEL of call 2. -/
def redeemRaceRun : RThread × RThread × Store :=
  runSched "a1" 5 120 [true, false, true, true, false, false]
    (⟨.start, "r1"⟩, ⟨.start, "r2"⟩, redeemRaceStore)

/-- Claim C1, settled against the code: redemption is a GET followed later
by a separate DEL (`routes.js` 287 and 312), not an atomic delete-and-read.
Run sequentially, the two calls behave as the claim states (first returns a
reservation session, second fails with `invalid_or_expired_admissionToken`);
but in the interleaving `redeemRaceRun`, where both calls GET the admission
payload before either DELs it, both calls succeed, violating the claim's
at-most-once requirement for concurrent calls. -/
theorem c1_redeem_race :
    (redeem redeemRaceStore "a1" "r1" 5 120).2 = .ok ⟨"r1", 120, "u1", "E1"⟩ ∧
      (redeem (redeem redeemRaceStore "a1" "r1" 5 120).1 "a1" "r2" 6 120).2 =
        .error "invalid_or_expired_admissionToken" ∧
      isOkFinished redeemRaceRun.1.phase = true ∧
      isOkFinished redeemRaceRun.2.1.phase = true := by
  refine ⟨rfl, ?_, rfl, rfl⟩
  decide

/-! ## Claim C3: join-sequence allocation in `enter` -/

/-- Score under which a token is keyed in an event's queue. -/
def scoreOf (s : Store) (eventId tok : String) : Option Nat :=
  ((s.queues eventId).find? (fun x => x.2 = tok)).map Prod.fst

/-- Two entrants within the same wall-clock millisecond. -/
def c3run : Store := (enter (enter emptyStore "u1" "E" "qa" 5).1 "u2" "E" "qb" 5).1

/-- Claim C3 counterexample: `enter` keys the queue entry by `Date.now()`
(`routes.js` 82 and 103); two calls in the same millisecond allocate the
same join-sequence, so the later call's sequence (5) is not strictly
greater than the earlier call's previously issued sequence (5), and
sequences within an event are not unique. -/
theorem c3_counterexample :
    scoreOf c3run "E" "qa" = some 5 ∧ scoreOf c3run "E" "qb" = some 5 ∧
      ¬ 5 > 5 := by
  refine ⟨by decide, by decide, by omega⟩

/-- Claim C3 as amended: each call to `enter` allocates the current wall
clock as the token's join-sequence and inserts the token into the event's
queue keyed by that sequence; across two calls with a non-decreasing clock,
the later sequence is greater than or equal to (not strictly greater than)
the earlier one, and the earlier entry stays keyed by its own sequence. -/
theorem c3_join_sequence_nondecreasing (s : Store) (u1 u2 e t1 t2 : String)
    (n1 n2 : Nat) (hu1 : u1 ≠ "") (hu2 : u2 ≠ "") (he : e ≠ "")
    (ht : t1 ≠ t2) (hn : n1 ≤ n2) :
    scoreOf (enter s u1 e t1 n1).1 e t1 = some n1 ∧
      scoreOf (enter (enter s u1 e t1 n1).1 u2 e t2 n2).1 e t2 = some n2 ∧
      scoreOf (enter (enter s u1 e t1 n1).1 u2 e t2 n2).1 e t1 = some n1 ∧
      n1 ≤ n2 := by
  have hfind1 : ∀ l : List (Nat × String),
      List.find? (fun x => x.2 = t1) ((n1, t1) :: l) = some (n1, t1) := by
    intro l
    simp [List.find?_cons_of_pos]
  refine ⟨?_, ?_, ?_, hn⟩
  · simp [enter, hu1, he, scoreOf, updKey, zadd, hfind1]
  · simp [enter, hu1, hu2, he, scoreOf, updKey, zadd, List.find?_cons_of_pos]
  · have ht2 : t2 ≠ t1 := ht.symm
    simp [enter, hu1, hu2, he, scoreOf, updKey, zadd, ht2, ht, hfind1]

theorem c3_join_sequence_nondecreasing_witness :
    scoreOf (enter emptyStore "u1" "E" "qa" 5).1 "E" "qa" = some 5 ∧
      scoreOf (enter (enter emptyStore "u1" "E" "qa" 5).1 "u2" "E" "qb" 7).1 "E" "qb" = some 7 ∧
      scoreOf (enter (enter emptyStore "u1" "E" "qa" 5).1 "u2" "E" "qb" 7).1 "E" "qa" = some 5 ∧
      5 ≤ 7 :=
  c3_join_sequence_nondecreasing emptyStore "u1" "u2" "E" "qa" "qb" 5 7
    (by decide) (by decide) (by decide) (by decide) (by omega)

/-! ## Invariants of the scheduler sweep -/

/-- The token appears in no event's queue ledger. -/
def tokNotInQueues (s : Store) (t : String) : Prop :=
  ∀ e sc, (sc, t) ∉ s.queues e

/-- Every ledger entry of the token sits in event `E` with score `n`. -/
def tokOnlyAt (s : Store) (t E : String) (n : Nat) : Prop :=
  ∀ e sc, (sc, t) ∈ s.queues e → e = E ∧ sc = n

theorem tokNotInQueues_onlyAt {s : Store} {t E : String} {n : Nat}
    (h : tokNotInQueues s t) : tokOnlyAt s t E n :=
  fun e sc hm => absurd hm (h e sc)

theorem pair_sublist_append {x y t : String} {l : List String}
    (h : List.Sublist [x, y] (l ++ [t])) :
    List.Sublist [x, y] l ∨ (x ∈ l ∧ y = t) := by
  obtain ⟨l1, l2, heq, hs1, hs2⟩ := List.sublist_append_iff.mp h
  match l1, heq with
  | [], heq =>
    rw [List.nil_append] at heq
    rw [← heq] at hs2
    have := hs2.length_le
    simp at this
  | [a], heq =>
    simp only [List.cons_append, List.nil_append, List.cons.injEq] at heq
    obtain ⟨rfl, rfl⟩ := heq
    rcases List.sublist_singleton.mp hs2 with h2 | h2
    · exact absurd h2 (by simp)
    · have hy : y = t := by
        have := List.cons.inj h2
        exact this.1
      exact Or.inr ⟨hs1.subset (by simp), hy⟩
  | a :: b :: rest, heq =>
    simp only [List.cons_append, List.cons.injEq] at heq
    obtain ⟨rfl, rfl, hrest⟩ := heq
    have hr : rest = [] ∧ l2 = [] := by
      cases rest with
      | nil => exact ⟨rfl, hrest.symm ▸ rfl⟩
      | cons c cs => simp at hrest
    rw [hr.1] at hs1
    exact Or.inl hs1

/-- Ledger entries after an `enter`: each entry was present before, or is
the freshly inserted (score, token) pair in the entered event. -/
theorem enter_queues_entry {s : Store} {u e t : String} {n : Nat} {e2 : String}
    {x : Nat × String} (hx : x ∈ (enter s u e t n).1.queues e2) :
    x ∈ s.queues e2 ∨ (x = (n, t) ∧ e2 = e) := by
  unfold enter at hx
  split at hx
  · exact Or.inl hx
  · split at hx
    · exact Or.inl hx
    · dsimp only at hx
      by_cases he2 : e2 = e
      · subst he2
        rw [updKey_same] at hx
        unfold zadd at hx
        rcases List.mem_cons.mp hx with h | h
        · exact Or.inr ⟨h, rfl⟩
        · exact Or.inl (List.mem_of_mem_filter h)
      · rw [updKey_other _ _ _ _ he2] at hx
        exact Or.inl hx

theorem enter_log (s : Store) (u e t : String) (n : Nat) :
    (enter s u e t n).1.log = s.log := by
  unfold enter
  split
  · rfl
  · split <;> rfl

/-- One scheduler-loop iteration only removes ledger entries. -/
theorem admitLoop_queues_sub (mint : Nat → String) (now : Nat) (E2 : String) :
    ∀ (fuel ctr : Nat) (s : Store) (e : String) (x : Nat × String),
      x ∈ ((admitLoop mint now E2 fuel ctr s).1).queues e → x ∈ s.queues e := by
  intro fuel
  induction fuel with
  | zero => intro ctr s e x hx; exact hx
  | succ n ih =>
    intro ctr s e x hx
    rw [admitLoop] at hx
    cases hpop : zpopMin (s.queues E2) with
    | none => rw [hpop] at hx; exact hx
    | some pr =>
      obtain ⟨e0, rest⟩ := pr
      rw [hpop] at hx
      have hsub : ∀ e1 y, y ∈ (updKey s.queues E2 rest) e1 → y ∈ s.queues e1 := by
        intro e1 y hy
        by_cases h1 : e1 = E2
        · subst h1
          rw [updKey_same] at hy
          exact zpopMin_rest_subset hpop hy
        · rw [updKey_other _ _ _ _ h1] at hy
          exact hy
      cases hmeta : s.meta e0.2 with
      | none =>
        simp only [hmeta] at hx
        exact hsub e x (ih _ _ e x hx)
      | some m =>
        simp only [hmeta] at hx
        exact hsub e x (ih _ _ e x hx)

/-- Tokens appended to the admission log during one scheduler-loop run were
present in the processed event's queue beforehand. -/
theorem admitLoop_log_from_queues (mint : Nat → String) (now : Nat) (E2 : String) :
    ∀ (fuel ctr : Nat) (s : Store) (x : String),
      x ∈ ((admitLoop mint now E2 fuel ctr s).1).log →
        x ∈ s.log ∨ ∃ sc, (sc, x) ∈ s.queues E2 := by
  intro fuel
  induction fuel with
  | zero => intro ctr s x hx; exact Or.inl hx
  | succ n ih =>
    intro ctr s x hx
    rw [admitLoop] at hx
    cases hpop : zpopMin (s.queues E2) with
    | none => rw [hpop] at hx; exact Or.inl hx
    | some pr =>
      obtain ⟨e0, rest⟩ := pr
      rw [hpop] at hx
      have hrest : ∀ y, y ∈ (updKey s.queues E2 rest) E2 → y ∈ s.queues E2 := by
        intro y hy
        rw [updKey_same] at hy
        exact zpopMin_rest_subset hpop hy
      cases hmeta : s.meta e0.2 with
      | none =>
        simp only [hmeta] at hx
        rcases ih _ _ x hx with h | ⟨sc, hsc⟩
        · exact Or.inl h
        · exact Or.inr ⟨sc, hrest _ hsc⟩
      | some m =>
        simp only [hmeta] at hx
        rcases ih _ _ x hx with h | ⟨sc, hsc⟩
        · rcases List.mem_append.mp h with h2 | h2
          · exact Or.inl h2
          · have : x = e0.2 := by simpa using h2
            exact Or.inr ⟨e0.1, this ▸ zpopMin_mem hpop⟩
        · exact Or.inr ⟨sc, hrest _ hsc⟩

/-- The FIFO invariant tracked along a run, for a fixed pair of queue tokens
`A` (joined with sequence `nA`) and `B` (joined with sequence `nB`) in event
`E`: every ledger entry of each token is its own join entry, `A` was never
admitted after `B`, and once `B` has been admitted, `A` is no longer in any
queue (so `A` can never be admitted any more). -/
def fifoInv (A B E : String) (nA nB : Nat) (s : Store) : Prop :=
  tokOnlyAt s A E nA ∧ tokOnlyAt s B E nB ∧
    ¬ List.Sublist [B, A] s.log ∧ (B ∈ s.log → tokNotInQueues s A)

theorem admitLoop_fifoInv {A B E : String} {nA nB : Nat} (_hAB : A ≠ B)
    (hn : nA < nB) (mint : Nat → String) (now : Nat) (E2 : String) :
    ∀ (fuel ctr : Nat) (s : Store), fifoInv A B E nA nB s →
      fifoInv A B E nA nB (admitLoop mint now E2 fuel ctr s).1 := by
  intro fuel
  induction fuel with
  | zero => intro ctr s h; exact h
  | succ n ih =>
    intro ctr s h
    obtain ⟨hA, hB, hlog, himp⟩ := h
    rw [admitLoop]
    cases hpop : zpopMin (s.queues E2) with
    | none => exact ⟨hA, hB, hlog, himp⟩
    | some pr =>
      obtain ⟨e0, rest⟩ := pr
      have hsub : ∀ e1 y, y ∈ (updKey s.queues E2 rest) e1 → y ∈ s.queues e1 := by
        intro e1 y hy
        by_cases h1 : e1 = E2
        · subst h1
          rw [updKey_same] at hy
          exact zpopMin_rest_subset hpop hy
        · rw [updKey_other _ _ _ _ h1] at hy
          exact hy
      have hA1 : tokOnlyAt { s with queues := updKey s.queues E2 rest } A E nA :=
        fun e sc hm => hA e sc (hsub e _ hm)
      have hB1 : tokOnlyAt { s with queues := updKey s.queues E2 rest } B E nB :=
        fun e sc hm => hB e sc (hsub e _ hm)
      have himp1 : B ∈ s.log →
          tokNotInQueues { s with queues := updKey s.queues E2 rest } A :=
        fun hBmem e sc hm => himp hBmem e sc (hsub e _ hm)
      cases hmeta : s.meta e0.2 with
      | none =>
        simp only [hmeta]
        exact ih _ _ ⟨hA1, hB1, hlog, himp1⟩
      | some m =>
        simp only [hmeta]
        apply ih
        refine ⟨hA1, hB1, ?_, ?_⟩
        · intro hbad
          rcases pair_sublist_append hbad with hbad2 | ⟨hBmem, hAt⟩
          · exact hlog hbad2
          · have : (e0.1, A) ∈ s.queues E2 := by
              rw [hAt]
              exact zpopMin_mem hpop
            exact himp hBmem E2 e0.1 this
        · intro hBmem e sc hm
          rcases List.mem_append.mp hBmem with hBold | hBnew
          · exact himp hBold e sc (hsub e _ hm)
          · have ht : B = e0.2 := by simpa using hBnew
            have hmemB : (e0.1, B) ∈ s.queues E2 := by
              rw [ht]
              exact zpopMin_mem hpop
            have hEB : E2 = E ∧ e0.1 = nB := hB E2 e0.1 hmemB
            have hmA : (sc, A) ∈ s.queues e := hsub e _ hm
            have hEA : e = E ∧ sc = nA := hA e sc hmA
            have hmin : e0.1 ≤ sc := by
              apply zpopMin_min hpop (sc, A)
              rw [hEB.1, ← hEA.1]
              exact hmA
            omega

/-- A token in no queue and not in the log stays so across a scheduler-loop
run (it can never be popped, hence never admitted). -/
theorem admitLoop_absent (mint : Nat → String) (now : Nat) (E2 : String)
    (X : String) (fuel ctr : Nat) (s : Store)
    (h1 : tokNotInQueues s X) (h2 : X ∉ s.log) :
    tokNotInQueues (admitLoop mint now E2 fuel ctr s).1 X ∧
      X ∉ (admitLoop mint now E2 fuel ctr s).1.log := by
  constructor
  · intro e sc hm
    exact h1 e sc (admitLoop_queues_sub mint now E2 fuel ctr s e (sc, X) hm)
  · intro hmem
    rcases admitLoop_log_from_queues mint now E2 fuel ctr s X hmem with h | ⟨sc, hsc⟩
    · exact h2 h
    · exact h1 E2 sc hsc

theorem foldl_preserve {α β : Type} (P : α → Prop) (f : α → β → α)
    (hf : ∀ a b, P a → P (f a b)) : ∀ (l : List β) (a : α), P a → P (l.foldl f a)
  | [], _, h => h
  | b :: l, a, h => foldl_preserve P f hf l (f a b) (hf a b h)

theorem admitBatchOnce_fifoInv {A B E : String} {nA nB : Nat} (hAB : A ≠ B)
    (hn : nA < nB) (mint : Nat → String) (ctr now batchSize : Nat) (s : Store)
    (h : fifoInv A B E nA nB s) :
    fifoInv A B E nA nB (admitBatchOnce mint ctr now batchSize s).1 := by
  unfold admitBatchOnce
  have := foldl_preserve (fun acc : Store × Nat => fifoInv A B E nA nB acc.1)
    (admitEvent mint now batchSize) ?_ s.events (s, ctr) h
  · exact this
  · intro acc ev hacc
    unfold admitEvent
    split
    · exact hacc
    · exact admitLoop_fifoInv hAB hn mint now ev batchSize acc.2 acc.1 hacc

theorem foldl_preserve_mem {α β : Type} (P : α → Prop) (f : α → β → α) :
    ∀ (l : List β) (a : α), (∀ b ∈ l, ∀ x, P x → P (f x b)) → P a → P (l.foldl f a)
  | [], _, _, h => h
  | b :: l, a, hl, h =>
    foldl_preserve_mem P f l (f a b)
      (fun c hc => hl c (List.mem_cons_of_mem b hc)) (hl b (List.mem_cons_self b l) a h)

/-- Before either token has entered: neither is in any queue or in the log. -/
def absentInv (A B : String) (s : Store) : Prop :=
  tokNotInQueues s A ∧ A ∉ s.log ∧ tokNotInQueues s B ∧ B ∉ s.log

/-- After `A` entered, before `B` entered. -/
def midInv (A B E : String) (nA : Nat) (s : Store) : Prop :=
  tokOnlyAt s A E nA ∧ tokNotInQueues s B ∧ B ∉ s.log

theorem admitBatchOnce_absent (mint : Nat → String) (ctr now batchSize : Nat)
    (s : Store) (X : String) (h1 : tokNotInQueues s X) (h2 : X ∉ s.log) :
    tokNotInQueues (admitBatchOnce mint ctr now batchSize s).1 X ∧
      X ∉ (admitBatchOnce mint ctr now batchSize s).1.log := by
  unfold admitBatchOnce
  refine foldl_preserve
    (fun acc : Store × Nat => tokNotInQueues acc.1 X ∧ X ∉ acc.1.log)
    (admitEvent mint now batchSize) ?_ s.events (s, ctr) ⟨h1, h2⟩
  intro acc ev hacc
  unfold admitEvent
  split
  · exact hacc
  · exact admitLoop_absent mint now ev X batchSize acc.2 acc.1 hacc.1 hacc.2

theorem admitBatchOnce_queues_sub (mint : Nat → String) (ctr now batchSize : Nat)
    (s : Store) : ∀ (e : String) (x : Nat × String),
      x ∈ (admitBatchOnce mint ctr now batchSize s).1.queues e → x ∈ s.queues e := by
  unfold admitBatchOnce
  refine foldl_preserve
    (fun acc : Store × Nat => ∀ e x, x ∈ acc.1.queues e → x ∈ s.queues e)
    (admitEvent mint now batchSize) ?_ s.events (s, ctr) (fun e x hx => hx)
  intro acc ev hacc e x hx
  unfold admitEvent at hx
  split at hx
  · exact hacc e x hx
  · exact hacc e x (admitLoop_queues_sub mint now ev batchSize acc.2 acc.1 e x hx)

theorem applyOp_absentInv {A B : String} {s : Store} (op : Op)
    (hA : ¬ entersTok A op) (hB : ¬ entersTok B op)
    (h : absentInv A B s) : absentInv A B (applyOp s op) := by
  obtain ⟨h1, h2, h3, h4⟩ := h
  cases op with
  | enter u e t n =>
    refine ⟨?_, ?_, ?_, ?_⟩
    · intro e2 sc hm
      rcases enter_queues_entry hm with hold | ⟨heq, _⟩
      · exact h1 e2 sc hold
      · exact hA (by injection heq with hsc ht; exact ht.symm)
    · rw [show (applyOp s (Op.enter u e t n)).log = s.log from enter_log s u e t n]
      exact h2
    · intro e2 sc hm
      rcases enter_queues_entry hm with hold | ⟨heq, _⟩
      · exact h3 e2 sc hold
      · exact hB (by injection heq with hsc ht; exact ht.symm)
    · rw [show (applyOp s (Op.enter u e t n)).log = s.log from enter_log s u e t n]
      exact h4
  | tick mint ctr now batchSize =>
    have hA2 := admitBatchOnce_absent mint ctr now batchSize s A h1 h2
    have hB2 := admitBatchOnce_absent mint ctr now batchSize s B h3 h4
    exact ⟨hA2.1, hA2.2, hB2.1, hB2.2⟩
  | expireMeta t => exact ⟨h1, h2, h3, h4⟩
  | expireState t => exact ⟨h1, h2, h3, h4⟩
  | expireAdmission a => exact ⟨h1, h2, h3, h4⟩

theorem applyOp_midInv {A B E : String} {nA : Nat} {s : Store} (op : Op)
    (hA : ¬ entersTok A op) (hB : ¬ entersTok B op)
    (h : midInv A B E nA s) : midInv A B E nA (applyOp s op) := by
  obtain ⟨h1, h2, h3⟩ := h
  cases op with
  | enter u e t n =>
    refine ⟨?_, ?_, ?_⟩
    · intro e2 sc hm
      rcases enter_queues_entry hm with hold | ⟨heq, _⟩
      · exact h1 e2 sc hold
      · exact absurd (show entersTok A (Op.enter u e t n) by injection heq with hsc ht; exact ht.symm) hA
    · intro e2 sc hm
      rcases enter_queues_entry hm with hold | ⟨heq, _⟩
      · exact h2 e2 sc hold
      · exact hB (by injection heq with hsc ht; exact ht.symm)
    · rw [show (applyOp s (Op.enter u e t n)).log = s.log from enter_log s u e t n]
      exact h3
  | tick mint ctr now batchSize =>
    have hB2 := admitBatchOnce_absent mint ctr now batchSize s B h2 h3
    refine ⟨?_, hB2.1, hB2.2⟩
    intro e2 sc hm
    exact h1 e2 sc (admitBatchOnce_queues_sub mint ctr now batchSize s e2 (sc, A) hm)
  | expireMeta t => exact ⟨h1, h2, h3⟩
  | expireState t => exact ⟨h1, h2, h3⟩
  | expireAdmission a => exact ⟨h1, h2, h3⟩

theorem applyOp_fifoInv {A B E : String} {nA nB : Nat} {s : Store}
    (hAB : A ≠ B) (hn : nA < nB) (op : Op)
    (hA : ¬ entersTok A op) (hB : ¬ entersTok B op)
    (h : fifoInv A B E nA nB s) : fifoInv A B E nA nB (applyOp s op) := by
  obtain ⟨h1, h2, h3, h4⟩ := h
  cases op with
  | enter u e t n =>
    refine ⟨?_, ?_, ?_, ?_⟩
    · intro e2 sc hm
      rcases enter_queues_entry hm with hold | ⟨heq, _⟩
      · exact h1 e2 sc hold
      · exact absurd (show entersTok A (Op.enter u e t n) by
          injection heq with hsc ht; exact ht.symm) hA
    · intro e2 sc hm
      rcases enter_queues_entry hm with hold | ⟨heq, _⟩
      · exact h2 e2 sc hold
      · exact absurd (show entersTok B (Op.enter u e t n) by
          injection heq with hsc ht; exact ht.symm) hB
    · rw [show (applyOp s (Op.enter u e t n)).log = s.log from enter_log s u e t n]
      exact h3
    · rw [show (applyOp s (Op.enter u e t n)).log = s.log from enter_log s u e t n]
      intro hBmem e2 sc hm
      rcases enter_queues_entry hm with hold | ⟨heq, _⟩
      · exact h4 hBmem e2 sc hold
      · exact absurd (show entersTok A (Op.enter u e t n) by
          injection heq with hsc ht; exact ht.symm) hA
  | tick mint ctr now batchSize =>
    exact admitBatchOnce_fifoInv hAB hn mint ctr now batchSize s ⟨h1, h2, h3, h4⟩
  | expireMeta t => exact ⟨h1, h2, h3, h4⟩
  | expireState t => exact ⟨h1, h2, h3, h4⟩
  | expireAdmission a => exact ⟨h1, h2, h3, h4⟩

theorem enterA_midInv {A B E uA : String} {nA : Nat} {s : Store} (hAB : A ≠ B)
    (h : absentInv A B s) : midInv A B E nA ((enter s uA E A nA).1) := by
  obtain ⟨h1, h2, h3, h4⟩ := h
  refine ⟨?_, ?_, ?_⟩
  · intro e2 sc hm
    rcases enter_queues_entry hm with hold | ⟨heq, he2⟩
    · exact absurd hold (h1 e2 sc)
    · injection heq with hsc ht
      exact ⟨he2, hsc⟩
  · intro e2 sc hm
    rcases enter_queues_entry hm with hold | ⟨heq, _⟩
    · exact h3 e2 sc hold
    · injection heq with hsc ht
      exact hAB ht.symm
  · rw [enter_log]
    exact h4

theorem enterB_fifoInv {A B E uB : String} {nA nB : Nat} {s : Store} (hAB : A ≠ B)
    (h : midInv A B E nA s) : fifoInv A B E nA nB ((enter s uB E B nB).1) := by
  obtain ⟨h1, h2, h3⟩ := h
  refine ⟨?_, ?_, ?_, ?_⟩
  · intro e2 sc hm
    rcases enter_queues_entry hm with hold | ⟨heq, _⟩
    · exact h1 e2 sc hold
    · injection heq with hsc ht
      exact absurd ht hAB
  · intro e2 sc hm
    rcases enter_queues_entry hm with hold | ⟨heq, he2⟩
    · exact absurd hold (h2 e2 sc)
    · injection heq with hsc ht
      exact ⟨he2, hsc⟩
  · rw [enter_log]
    intro hbad
    exact h3 (hbad.subset (by simp))
  · rw [enter_log]
    intro hBmem
    exact absurd hBmem h3

/-- Claim C2: within one event, admission order matches join order.  For any
system run from the empty store in which token `A` enters event `E` with a
join sequence strictly smaller than the sequence token `B` later enters with
(and neither token is entered elsewhere in the run), the admission log never
contains `A` after `B`: the scheduler pops lowest outstanding sequences
first, so `A` is never admitted after `B`. -/
theorem c2_fifo_within_event (A B E uA uB : String) (nA nB : Nat)
    (p1 p2 p3 : List Op) (hAB : A ≠ B) (hn : nA < nB)
    (h1 : ∀ op ∈ p1, ¬ entersTok A op ∧ ¬ entersTok B op)
    (h2 : ∀ op ∈ p2, ¬ entersTok A op ∧ ¬ entersTok B op)
    (h3 : ∀ op ∈ p3, ¬ entersTok A op ∧ ¬ entersTok B op) :
    ¬ List.Sublist [B, A]
      (runOps emptyStore
        (p1 ++ Op.enter uA E A nA :: (p2 ++ Op.enter uB E B nB :: p3))).log := by
  have hinit : absentInv A B emptyStore :=
    ⟨fun e sc hm => by simp [emptyStore] at hm, by simp [emptyStore],
     fun e sc hm => by simp [emptyStore] at hm, by simp [emptyStore]⟩
  have hs1 : absentInv A B (List.foldl applyOp emptyStore p1) :=
    foldl_preserve_mem _ applyOp p1 emptyStore
      (fun op hop x hx => applyOp_absentInv op (h1 op hop).1 (h1 op hop).2 hx) hinit
  have hs2 : midInv A B E nA
      (applyOp (List.foldl applyOp emptyStore p1) (Op.enter uA E A nA)) :=
    enterA_midInv hAB hs1
  have hs3 : midInv A B E nA
      (List.foldl applyOp
        (applyOp (List.foldl applyOp emptyStore p1) (Op.enter uA E A nA)) p2) :=
    foldl_preserve_mem _ applyOp p2 _
      (fun op hop x hx => applyOp_midInv op (h2 op hop).1 (h2 op hop).2 hx) hs2
  have hs4 : fifoInv A B E nA nB
      (applyOp (List.foldl applyOp
        (applyOp (List.foldl applyOp emptyStore p1) (Op.enter uA E A nA)) p2)
        (Op.enter uB E B nB)) :=
    enterB_fifoInv hAB hs3
  have hs5 := foldl_preserve_mem (fifoInv A B E nA nB) applyOp p3 _
    (fun op hop x hx => applyOp_fifoInv hAB hn op (h3 op hop).1 (h3 op hop).2 hx) hs4
  rw [runOps, List.foldl_append, List.foldl_cons, List.foldl_append, List.foldl_cons]
  exact hs5.2.2.1

theorem c2_fifo_within_event_witness :
    ¬ List.Sublist ["qb", "qa"]
      (runOps emptyStore
        ([] ++ Op.enter "u1" "E1" "qa" 1 ::
          ([] ++ Op.enter "u2" "E1" "qb" 2 ::
            [Op.tick (fun n => "a" ++ toString n) 0 9 5,
             Op.tick (fun n => "b" ++ toString n) 0 10 5]))).log :=
  c2_fifo_within_event "qa" "qb" "E1" "u1" "u2" 1 2 [] []
    [Op.tick (fun n => "a" ++ toString n) 0 9 5,
     Op.tick (fun n => "b" ++ toString n) 0 10 5]
    (by decide) (by omega)
    (by intro op hop; cases hop)
    (by intro op hop; cases hop)
    (by decide)

/-! ## Claims C6 and C7: per-tick batch behaviour -/

/-- One scheduler-loop run admits at most `fuel` tokens (the log grows by at
most `fuel` entries). -/
theorem admitLoop_log_bound (mint : Nat → String) (now : Nat) (E2 : String) :
    ∀ (fuel ctr : Nat) (s : Store),
      ((admitLoop mint now E2 fuel ctr s).1).log.length ≤ s.log.length + fuel := by
  intro fuel
  induction fuel with
  | zero => intro ctr s; exact Nat.le_add_right _ _
  | succ n ih =>
    intro ctr s
    rw [admitLoop]
    cases hpop : zpopMin (s.queues E2) with
    | none => exact Nat.le_add_right _ _
    | some pr =>
      obtain ⟨e0, rest⟩ := pr
      cases hmeta : s.meta e0.2 with
      | none =>
        simp only [hmeta]
        exact Nat.le_succ_of_le (ih _ _)
      | some m =>
        simp only [hmeta]
        refine le_trans (ih _ _) ?_
        simp only [List.length_append, List.length_cons, List.length_nil]
        omega

/-- The 12-entrant scenario: tokens `t0` .. `t11` join event `E1` in order
with join sequences 1 .. 12. -/
def c6store : Store :=
  runOps emptyStore
    ((List.range 12).map (fun i => Op.enter "u" "E1" ("t" ++ toString i) (i + 1)))

/-- The store after one scheduler tick over the 12-entrant scenario with
`batchSize = 5`. -/
def c6tick : Store :=
  (admitBatchOnce (fun n => "a" ++ toString n) 0 99 5 c6store).1

/-- One-based queue position as reported by the status route. -/
def positionIn (s : Store) (eventId tok : String) : Option Nat :=
  (zrank (s.queues eventId) tok).map (fun r => r + 1)

/-- Claim C6: one scheduler sweep admits at most `batchSize` tokens per
event; popping an empty queue yields an empty result and the event is
skipped rather than erroring; and in the 12-entrant scenario with
`batchSize = 5`, one tick admits exactly the 5 earliest tokens (in join
order) and leaves the remaining 7 at positions 1 .. 7 in their original
relative order. -/
theorem c6_batch_bound_empty_scenario :
    (∀ (mint : Nat → String) (now batchSize ctr : Nat) (s : Store) (E2 : String),
      ((admitLoop mint now E2 batchSize ctr s).1).log.length ≤
        s.log.length + batchSize) ∧
    zpopMin [] = none ∧
    (∀ (mint : Nat → String) (now b ctr : Nat) (s : Store) (E2 : String),
      s.queues E2 = [] → admitEvent mint now b (s, ctr) E2 = (s, ctr)) ∧
    c6tick.log = ["t0", "t1", "t2", "t3", "t4"] ∧
    (∀ t ∈ ["t0", "t1", "t2", "t3", "t4"], c6tick.state t = some "ADMITTED") ∧
    positionIn c6tick "E1" "t5" = some 1 ∧
    positionIn c6tick "E1" "t6" = some 2 ∧
    positionIn c6tick "E1" "t7" = some 3 ∧
    positionIn c6tick "E1" "t8" = some 4 ∧
    positionIn c6tick "E1" "t9" = some 5 ∧
    positionIn c6tick "E1" "t10" = some 6 ∧
    positionIn c6tick "E1" "t11" = some 7 := by
  refine ⟨fun mint now batchSize ctr s E2 =>
    admitLoop_log_bound mint now E2 batchSize ctr s, rfl, ?_, ?_⟩
  · intro mint now b ctr s E2 hq
    unfold admitEvent
    rw [hq]
    rfl
  · decide

theorem c6_batch_bound_empty_scenario_witness :
    ((admitLoop (fun n => "w" ++ toString n) 0 "E" 5 0 emptyStore).1).log.length ≤
        emptyStore.log.length + 5 ∧
      admitEvent (fun n => "w" ++ toString n) 0 5 (emptyStore, 0) "E" =
        (emptyStore, 0) :=
  ⟨c6_batch_bound_empty_scenario.1 (fun n => "w" ++ toString n) 0 5 0 emptyStore "E",
    c6_batch_bound_empty_scenario.2.2.1 (fun n => "w" ++ toString n) 0 5 0 emptyStore
      "E" rfl⟩

/-- Frame lemma: a token absent from the processed event's queue is
untouched by the scheduler loop — its state and admission keys keep their
values, and every admission payload written binds some other token. -/
theorem admitLoop_frame (mint : Nat → String) (now : Nat) (E2 t : String) :
    ∀ (fuel ctr : Nat) (s : Store), (∀ sc, (sc, t) ∉ s.queues E2) →
      ((admitLoop mint now E2 fuel ctr s).1).state t = s.state t ∧
        ((admitLoop mint now E2 fuel ctr s).1).admByQueue t = s.admByQueue t ∧
        (∀ a p, ((admitLoop mint now E2 fuel ctr s).1).admPayload a = some p →
          s.admPayload a = some p ∨ p.queueToken ≠ t) := by
  intro fuel
  induction fuel with
  | zero => intro ctr s h; exact ⟨rfl, rfl, fun a p hp => Or.inl hp⟩
  | succ n ih =>
    intro ctr s h
    rw [admitLoop]
    cases hpop : zpopMin (s.queues E2) with
    | none => exact ⟨rfl, rfl, fun a p hp => Or.inl hp⟩
    | some pr =>
      obtain ⟨e0, rest⟩ := pr
      have htop : e0.2 ≠ t := by
        intro hbad
        apply h e0.1
        have := zpopMin_mem hpop
        rw [← hbad]
        exact this
      have hrest2 : ∀ sc, (sc, t) ∉ updKey s.queues E2 rest E2 := by
        intro sc hx
        rw [updKey_same] at hx
        exact h sc (zpopMin_rest_subset hpop hx)
      cases hmeta : s.meta e0.2 with
      | none =>
        simp only [hmeta]
        have hr := ih ctr
          { s with queues := updKey s.queues E2 rest,
                   state := updKey s.state e0.2 none }
          (fun sc => hrest2 sc)
        refine ⟨?_, hr.2.1, hr.2.2⟩
        rw [hr.1]
        exact updKey_other _ _ _ _ (fun hh => htop hh.symm)
      | some m =>
        simp only [hmeta]
        have hr := ih (ctr + 1)
          { s with queues := updKey s.queues E2 rest,
                   state := updKey s.state e0.2 (some "ADMITTED"),
                   admByQueue := updKey s.admByQueue e0.2 (some (mint ctr)),
                   admPayload := updKey s.admPayload (mint ctr)
                     (some ⟨e0.2, m.userId, E2, now⟩),
                   log := s.log ++ [e0.2] }
          (fun sc => hrest2 sc)
        refine ⟨?_, ?_, ?_⟩
        · rw [hr.1]
          exact updKey_other _ _ _ _ (fun hh => htop hh.symm)
        · rw [hr.2.1]
          exact updKey_other _ _ _ _ (fun hh => htop hh.symm)
        · intro a p hp
          rcases hr.2.2 a p hp with hcase | hcase
          · by_cases ha : a = mint ctr
            · subst ha
              simp only [updKey_same] at hcase
              have hpv : p = ⟨e0.2, m.userId, E2, now⟩ := by
                injection hcase with hh
                exact hh.symm
              exact Or.inr (by rw [hpv]; exact htop)
            · simp only [updKey_other _ _ _ _ ha] at hcase
              exact Or.inl hcase
          · exact Or.inr hcase

/-- Claim C7: a popped token whose metadata record is absent is discarded
silently: the loop equation shows the sweep just deletes the token's state
key and continues with the remaining budget; afterwards the token was never
admitted (not in the log), its state is not ADMITTED (it is deleted), no
`queue:admission` entry was created for it, and every admission payload
written binds a different token. -/
theorem c7_stale_discard (mint : Nat → String) (now : Nat) (E2 : String)
    (b ctr : Nat) (s : Store) (sc : Nat) (t : String)
    (rest : List (Nat × String))
    (hpop : zpopMin (s.queues E2) = some ((sc, t), rest))
    (hmeta : s.meta t = none)
    (hrest : ∀ sc2, (sc2, t) ∉ rest)
    (hlog : t ∉ s.log) :
    admitLoop mint now E2 (b + 1) ctr s =
      admitLoop mint now E2 b ctr
        { s with queues := updKey s.queues E2 rest,
                 state := updKey s.state t none } ∧
      t ∉ ((admitLoop mint now E2 (b + 1) ctr s).1).log ∧
      ((admitLoop mint now E2 (b + 1) ctr s).1).state t = none ∧
      ((admitLoop mint now E2 (b + 1) ctr s).1).admByQueue t = s.admByQueue t ∧
      (∀ a p, ((admitLoop mint now E2 (b + 1) ctr s).1).admPayload a = some p →
        s.admPayload a = some p ∨ p.queueToken ≠ t) := by
  have hstep : admitLoop mint now E2 (b + 1) ctr s =
      admitLoop mint now E2 b ctr
        { s with queues := updKey s.queues E2 rest,
                 state := updKey s.state t none } := by
    rw [admitLoop, hpop]
    simp only [hmeta]
  have habs : ∀ sc2, (sc2, t) ∉
      ({ s with queues := updKey s.queues E2 rest,
                state := updKey s.state t none } : Store).queues E2 := by
    intro sc2 hx
    simp only [updKey_same] at hx
    exact hrest sc2 hx
  have hframe := admitLoop_frame mint now E2 t b ctr
    { s with queues := updKey s.queues E2 rest, state := updKey s.state t none }
    habs
  refine ⟨hstep, ?_, ?_, ?_, ?_⟩
  · rw [hstep]
    intro hmem
    rcases admitLoop_log_from_queues mint now E2 b ctr _ t hmem with hold | ⟨sc2, hsc⟩
    · exact hlog hold
    · exact habs sc2 hsc
  · rw [hstep, hframe.1]
    exact updKey_same _ _ _
  · rw [hstep, hframe.2.1]
  · rw [hstep]
    exact hframe.2.2

/-- Queue holding one stale token: ledger entry present, metadata gone. -/
def c7store : Store :=
  { emptyStore with queues := updKey emptyStore.queues "E" [(1, "tx")] }

theorem c7_stale_discard_witness :
    "tx" ∉ ((admitLoop (fun n => "z" ++ toString n) 0 "E" (0 + 1) 0 c7store).1).log ∧
      ((admitLoop (fun n => "z" ++ toString n) 0 "E" (0 + 1) 0 c7store).1).state "tx" =
        none ∧
      ((admitLoop (fun n => "z" ++ toString n) 0 "E" (0 + 1) 0 c7store).1).admByQueue
          "tx" = c7store.admByQueue "tx" := by
  have h := c7_stale_discard (fun n => "z" ++ toString n) 0 "E" 0 0 c7store 1 "tx" []
    (by decide) rfl (by intro sc2 hx; cases hx) (by intro hx; cases hx)
  exact ⟨h.2.1, h.2.2.1, h.2.2.2.1⟩
